import Mathlib

/-!
Shallow embedding of `segmentation/eval_utils.py` (heatmap evaluation
metrics for a localization model) and proofs of its specification claims.

Tensors of shape (batch, N) are embedded as `List (List ℚ)` (one inner
list per batch instance); all Keras backend operations used by the source
(`K.greater`, `K.cast`, `K.sum(axis=1)`, `K.mean`, elementwise `*`, `+`)
act per row, so each metric is the batch `mean` of a per-row computation.
Float arithmetic is modelled with exact rationals.
-/

namespace EvalUtils

/-- The Keras backend fuzz factor `K.epsilon()`, `1e-7`. -/
def eps : ℚ := 1 / 10000000

/-- Source expression `K.cast(K.greater(x, t), "float32")` at one entry:
`1` iff `x > t` (strict), else `0`. -/
def binarize (t x : ℚ) : ℚ := if t < x then 1 else 0

/-- Source expression `K.cast(K.greater(x, 0), "float32")` at one entry. -/
def indPos (x : ℚ) : ℚ := if 0 < x then 1 else 0

/-- The mean `K.mean` of a 1-D tensor. -/
def mean (l : List ℚ) : ℚ := l.sum / l.length

/-- One instance of the IoU computation shared by `iou`, `iou_acc` and
`iou_bbox`: `K.sum(y_true * m) / (K.epsilon() + K.sum(cast(y_true + m > 0)))`
for a ground-truth row `g` and an already-binarized row `m`. -/
def rowIoU (g m : List ℚ) : ℚ :=
  (List.zipWith (· * ·) g m).sum /
    (eps + (List.zipWith (fun a b => indPos (a + b)) g m).sum)

/-- Function `iou(y_true, y_pred, heatmap_threshold)` from the source: binarize the
predictions with strict `>`, take per-row intersection over union (with the
epsilon in the denominator), and average over the batch. -/
def iou (y_true y_pred : List (List ℚ)) (t : ℚ) : ℚ :=
  mean (List.zipWith (fun g p => rowIoU g (p.map (binarize t))) y_true y_pred)

/-- One instance of `precision`: `tp = K.sum(y_true * pred)`,
`fp = K.sum(cast(pred - y_true > 0))`, result `tp / (tp + fp + eps)`. -/
def rowPrecision (g bp : List ℚ) : ℚ :=
  (List.zipWith (· * ·) g bp).sum /
    ((List.zipWith (· * ·) g bp).sum +
      (List.zipWith (fun a b => indPos (b - a)) g bp).sum + eps)

/-- Function `precision(y_true, y_pred, heatmap_threshold)` from the source. -/
def precision (y_true y_pred : List (List ℚ)) (t : ℚ) : ℚ :=
  mean (List.zipWith (fun g p => rowPrecision g (p.map (binarize t))) y_true y_pred)

/-- One instance of `recall`: `tp = K.sum(y_true * pred)`,
`fn = K.sum(cast(y_true - pred > 0))`, result `tp / (tp + fn + eps)`. -/
def rowRecall (g bp : List ℚ) : ℚ :=
  (List.zipWith (· * ·) g bp).sum /
    ((List.zipWith (· * ·) g bp).sum +
      (List.zipWith (fun a b => indPos (a - b)) g bp).sum + eps)

/-- Function `recall(y_true, y_pred, heatmap_threshold)` from the source. -/
def «recall» (y_true y_pred : List (List ℚ)) (t : ℚ) : ℚ :=
  mean (List.zipWith (fun g p => rowRecall g (p.map (binarize t))) y_true y_pred)

/-- Function `iou_acc(y_true, y_pred, heatmap_threshold)` from the source: the
per-row IoU values are computed exactly as in `iou`, cast through
`K.greater(iou_values, 0.5)`, and averaged. -/
def iou_acc (y_true y_pred : List (List ℚ)) (t : ℚ) : ℚ :=
  mean ((List.zipWith (fun g p => rowIoU g (p.map (binarize t))) y_true y_pred).map
    (fun v => if (1 : ℚ) / 2 < v then 1 else 0))

/-!
Spec-side restatements, used to compare the source functions against the
wording of the specification.
-/

/-- The spec's formula for `iou`: per instance,
`sum(gt * binarized) / (sum((gt + binarized) > 0) + eps)` — the epsilon
written after the union sum — then the batch mean. -/
def iouSpec (y_true y_pred : List (List ℚ)) (t : ℚ) : ℚ :=
  mean (List.zipWith
    (fun g p =>
      let bp := p.map (binarize t)
      (List.zipWith (· * ·) g bp).sum /
        ((List.zipWith (fun a b => indPos (a + b)) g bp).sum + eps))
    y_true y_pred)

/-- The spec's formula for `precision`: per instance,
`tp = sum(gt * binarized)`, `fp = sum(max(binarized - gt, 0))`,
result `tp / (tp + fp + eps)`, then the batch mean. -/
def precisionSpec (y_true y_pred : List (List ℚ)) (t : ℚ) : ℚ :=
  mean (List.zipWith
    (fun g p =>
      let bp := p.map (binarize t)
      (List.zipWith (· * ·) g bp).sum /
        ((List.zipWith (· * ·) g bp).sum +
          (List.zipWith (fun a b => max (b - a) 0) g bp).sum + eps))
    y_true y_pred)

/-- Predicate: every entry of every row is `0` or `1`. -/
def entries01 (m : List (List ℚ)) : Prop := ∀ r ∈ m, ∀ x ∈ r, x = 0 ∨ x = 1

/-! ### Generic helper lemmas -/

theorem binarize_mem_01 (t x : ℚ) : binarize t x = 0 ∨ binarize t x = 1 := by
  unfold binarize; split <;> simp

theorem indPos_mem_01 (x : ℚ) : indPos x = 0 ∨ indPos x = 1 := by
  unfold indPos; split <;> simp

theorem zipWith_congr_mem {α β γ : Type} (f h : α → β → γ) :
    ∀ (l1 : List α) (l2 : List β),
      (∀ a ∈ l1, ∀ b ∈ l2, f a b = h a b) →
      List.zipWith f l1 l2 = List.zipWith h l1 l2 := by
  intro l1
  induction l1 with
  | nil => intro l2 _; simp
  | cons a l1 ih =>
    intro l2 hfh
    cases l2 with
    | nil => simp
    | cons b l2 =>
      simp only [List.zipWith_cons_cons]
      refine congrArg₂ _ (hfh a (by simp) b (by simp)) (ih l2 ?_)
      intro a' ha' b' hb'
      exact hfh a' (by simp [ha']) b' (by simp [hb'])

theorem forall_mem_zipWith {α β γ : Type} (P : γ → Prop) (f : α → β → γ) :
    ∀ (l1 : List α) (l2 : List β),
      (∀ a ∈ l1, ∀ b ∈ l2, P (f a b)) → ∀ v ∈ List.zipWith f l1 l2, P v := by
  intro l1
  induction l1 with
  | nil => intro l2 _ v hv; simp at hv
  | cons a l1 ih =>
    intro l2 hP v hv
    cases l2 with
    | nil => simp at hv
    | cons b l2 =>
      simp only [List.zipWith_cons_cons, List.mem_cons] at hv
      rcases hv with rfl | hv
      · exact hP a (by simp) b (by simp)
      · exact ih l2 (fun a' ha' b' hb' => hP a' (by simp [ha']) b' (by simp [hb'])) v hv

theorem mean_eq_zero (l : List ℚ) (h : ∀ x ∈ l, x = 0) : mean l = 0 := by
  unfold mean; rw [List.sum_eq_zero h]; simp

theorem sum_map_ite_eq_countP (p : ℚ → Prop) [DecidablePred p] (l : List ℚ) :
    (l.map (fun v => if p v then (1 : ℚ) else 0)).sum =
      (l.countP (fun v => decide (p v)) : ℚ) := by
  induction l with
  | nil => simp
  | cons a l ih =>
    by_cases hpa : p a <;>
      simp [List.countP_cons, hpa, ih] <;> push_cast <;> ring

theorem indPos_sub_eq_max (a b : ℚ) (ha : a = 0 ∨ a = 1) (hb : b = 0 ∨ b = 1) :
    indPos (b - a) = max (b - a) 0 := by
  rcases ha with rfl | rfl <;> rcases hb with rfl | rfl <;> norm_num [indPos]

/-! ### Claim theorems: iou, precision, iou_acc, degenerate inputs -/

/-- C2: for equal-shaped `gt` with entries in {0,1} and arbitrary `pred`,
`iou(gt, pred, t)` equals the batch mean of
`sum(gt * [pred > t]) / (sum([(gt + [pred > t]) > 0]) + eps)` computed per
instance, with strict `>` binarization. -/
theorem iou_eq_iouSpec (y_true y_pred : List (List ℚ)) (t : ℚ)
    (hg : entries01 y_true) (hshape : y_true.length = y_pred.length) :
    iou y_true y_pred t = iouSpec y_true y_pred t := by
  unfold iou iouSpec rowIoU
  congr 1
  apply zipWith_congr_mem
  intro g _ p _
  rw [add_comm]

/-- Witness for C2 at a concrete batch. -/
theorem iou_eq_iouSpec_witness :
    iou [[0, 1], [1, 0]] [[1, 0], [1, 1]] (1 / 2) =
      iouSpec [[0, 1], [1, 0]] [[1, 0], [1, 1]] (1 / 2) :=
  iou_eq_iouSpec [[0, 1], [1, 0]] [[1, 0], [1, 1]] (1 / 2)
    (by intro r hr x hx; fin_cases hr <;> fin_cases hx <;> simp)
    (by simp)

/-- C5: for equal-shaped `gt` with entries in {0,1} and arbitrary `pred`,
`precision(gt, pred, t)` equals the batch mean of `tp / (tp + fp + eps)`
with `tp = sum(gt * binarized)` and `fp = sum(max(binarized - gt, 0))`:
the source's indicator form of `fp` coincides with the max form on {0,1}
ground truth. -/
theorem precision_eq_precisionSpec (y_true y_pred : List (List ℚ)) (t : ℚ)
    (hg : entries01 y_true) (hshape : y_true.length = y_pred.length) :
    precision y_true y_pred t = precisionSpec y_true y_pred t := by
  unfold precision precisionSpec rowPrecision
  congr 1
  apply zipWith_congr_mem
  intro g hgm p _
  have hfp : List.zipWith (fun a b => indPos (b - a)) g (p.map (binarize t)) =
      List.zipWith (fun a b => max (b - a) 0) g (p.map (binarize t)) := by
    apply zipWith_congr_mem
    intro a ha b hb
    have hb01 : b = 0 ∨ b = 1 := by
      rcases List.mem_map.mp hb with ⟨x, _, rfl⟩
      exact binarize_mem_01 t x
    exact indPos_sub_eq_max a b (hg g hgm a ha) hb01
  rw [hfp]

/-- Witness for C5 at a concrete batch. -/
theorem precision_eq_precisionSpec_witness :
    precision [[0, 1], [1, 0]] [[1, 0], [1, 1]] (1 / 2) =
      precisionSpec [[0, 1], [1, 0]] [[1, 0], [1, 1]] (1 / 2) :=
  precision_eq_precisionSpec [[0, 1], [1, 0]] [[1, 0], [1, 1]] (1 / 2)
    (by intro r hr x hx; fin_cases hr <;> fin_cases hx <;> simp)
    (by simp)

/-- C4: `iou_acc(gt, pred, t)` is the fraction of batch instances whose
per-instance IoU (computed exactly as in `iou`, epsilon included) is
strictly greater than 1/2; the cutoff is the constant 1/2, independent of
the threshold argument `t`, and an instance with IoU exactly 1/2 is not
counted (the comparison is strict). -/
theorem iou_acc_eq_fraction (y_true y_pred : List (List ℚ)) (t : ℚ)
    (hshape : y_true.length = y_pred.length) :
    iou_acc y_true y_pred t =
      (((List.zipWith (fun g p => rowIoU g (p.map (binarize t))) y_true y_pred).countP
          (fun v => decide ((1 : ℚ) / 2 < v)) : ℕ) : ℚ) / (y_true.length : ℚ) := by
  unfold iou_acc mean
  rw [sum_map_ite_eq_countP (fun v => (1 : ℚ) / 2 < v)]
  rw [List.length_map, List.length_zipWith, ← hshape, min_self]

/-- Witness for C4: a two-instance batch where one IoU is 1 (counted) and
the other is below 1/2 (not counted). -/
theorem iou_acc_eq_fraction_witness :
    iou_acc [[1, 0], [1, 1]] [[1, 0], [0, 0]] (1 / 2) =
      (((List.zipWith (fun g p => rowIoU g (p.map (binarize (1 / 2))))
            [[1, 0], [1, 1]] [[1, 0], [0, 0]]).countP
          (fun v => decide ((1 : ℚ) / 2 < v)) : ℕ) : ℚ) /
        (([[1, 0], [1, 1]] : List (List ℚ)).length : ℚ) :=
  iou_acc_eq_fraction [[1, 0], [1, 1]] [[1, 0], [0, 0]] (1 / 2) (by simp)

/-- C8: when every ground-truth entry is 0 and every prediction is at or
below the threshold (so the binarized prediction is all zeros), `iou`,
`precision` and `recall` each return the well-defined value `0 / eps = 0`:
the epsilon term keeps every denominator positive, and no division by zero
occurs in the rational semantics. -/
theorem metrics_zero_of_all_zero (y_true y_pred : List (List ℚ)) (t : ℚ)
    (hg : ∀ r ∈ y_true, ∀ x ∈ r, x = 0) (hp : ∀ r ∈ y_pred, ∀ x ∈ r, x ≤ t) :
    iou y_true y_pred t = 0 ∧ precision y_true y_pred t = 0 ∧
      «recall» y_true y_pred t = 0 := by
  have hnum : ∀ (g p : List ℚ), g ∈ y_true → p ∈ y_pred →
      (List.zipWith (· * ·) g (p.map (binarize t))).sum = 0 := by
    intro g p hgm _
    apply List.sum_eq_zero
    apply forall_mem_zipWith (fun v => v = 0)
    intro a ha b _
    rw [hg g hgm a ha, zero_mul]
  refine ⟨?_, ?_, ?_⟩
  · apply mean_eq_zero
    apply forall_mem_zipWith (fun v => v = 0)
    intro g hgm p hpm
    unfold rowIoU
    rw [hnum g p hgm hpm, zero_div]
  · apply mean_eq_zero
    apply forall_mem_zipWith (fun v => v = 0)
    intro g hgm p hpm
    unfold rowPrecision
    rw [hnum g p hgm hpm, zero_div]
  · apply mean_eq_zero
    apply forall_mem_zipWith (fun v => v = 0)
    intro g hgm p hpm
    unfold rowRecall
    rw [hnum g p hgm hpm, zero_div]

/-- Witness for C8 at a concrete all-zero batch. -/
theorem metrics_zero_of_all_zero_witness :
    iou [[0, 0]] [[0, 0]] (1 / 2) = 0 ∧ precision [[0, 0]] [[0, 0]] (1 / 2) = 0 ∧
      «recall» [[0, 0]] [[0, 0]] (1 / 2) = 0 :=
  metrics_zero_of_all_zero [[0, 0]] [[0, 0]] (1 / 2)
    (by intro r hr x hx; fin_cases hr <;> fin_cases hx <;> rfl)
    (by intro r hr x hx; fin_cases hr <;> fin_cases hx <;> norm_num)

/-! ### format_results -/

/-- Three-digit zero padding used by the decimal part of `%2.3f`. -/
def pad3 (n : ℕ) : String :=
  if n < 10 then "00" ++ toString n
  else if n < 100 then "0" ++ toString n
  else toString n

/-- Python `'%2.3f' % q`: the value rendered with exactly three decimal
digits (the minimum field width 2 is always exceeded by such a rendering,
so it never pads). Rounding of the exact rational to the third decimal is
modelled with `round`. -/
def format2_3f (q : ℚ) : String :=
  let m : ℤ := round (q * 1000)
  let sgn := if m < 0 then "-" else ""
  let n := m.natAbs
  sgn ++ toString (n / 1000) ++ "." ++ pad3 (n % 1000)

/-- Function `format_results(names, scalars)` from the source: pair the two
sequences with `zip` — silently truncating to the shorter one — format
each pair as `"name: %2.3f"`, and join with `", "`. -/
def format_results (names : List String) (scalars : List ℚ) : String :=
  String.intercalate ", "
    ((List.zip names scalars).map (fun nv => nv.1 ++ ": " ++ format2_3f nv.2))

/-- C7 (code bug): the source `format_results` does not fail on
mismatched-length inputs — `zip` silently truncates to the shorter
sequence, so `["a","b"]` against the single value `[1.0]` yields
`"a: 1.000"` instead of an InvalidArgument error; on equal-length inputs
it produces the claimed formatting. -/
theorem format_results_truncates :
    format_results ["a", "b"] [1] = "a: 1.000" ∧
      format_results ["a", "b"] [1, 5 / 2] = "a: 1.000, b: 2.500" := by
  constructor <;> with_unfolding_all decide

/-! ### iou_bbox -/

/-- Sum of row `i` of a flat row `bp` reshaped row-major to `d × d`
(`K.sum(pred, axis=2)`): entry `(i, j)` of the reshape is entry
`i * d + j` of the flat row. -/
def rowSum (bp : List ℚ) (d i : ℕ) : ℚ :=
  ((List.range d).map (fun j => bp.getD (i * d + j) 0)).sum

/-- Sum of column `j` of the `d × d` reshape (`K.sum(pred, axis=1)`). -/
def colSum (bp : List ℚ) (d j : ℕ) : ℚ :=
  ((List.range d).map (fun i => bp.getD (i * d + j) 0)).sum

/-- The mask built inside `iou_bbox`, flattened back to length `d * d`:
`mask = mask_vert * mask_horiz` where `mask_vert` broadcasts the row
activity `cast(sum(pred, axis=2) > 0)` along columns and `mask_horiz`
broadcasts the column activity `cast(sum(pred, axis=1) > 0)` along rows,
so cell `k = i * d + j` holds `indPos (rowSum i) * indPos (colSum j)`. -/
def bboxMask (bp : List ℚ) (d : ℕ) : List ℚ :=
  (List.range (d * d)).map
    (fun k => indPos (rowSum bp d (k / d)) * indPos (colSum bp d (k % d)))

/-- Function `iou_bbox(y_true, y_pred, heatmap_threshold, input_dim)` from the
source, for inputs whose rows have length `input_dim * input_dim` (the
shape behaviour of the raw Keras ops on other shapes, reshape and
broadcasting included, is modelled separately by `TF.iou_bboxTF`). -/
def iou_bbox (y_true y_pred : List (List ℚ)) (t : ℚ) (input_dim : ℕ) : ℚ :=
  mean (List.zipWith
    (fun g p => rowIoU g (bboxMask (p.map (binarize t)) input_dim))
    y_true y_pred)

/-- Spec-side: indicator of the product set (active rows) × (active
columns): cell `k` is 1 iff row `k / d` contains a positive cell and
column `k % d` contains a positive cell. -/
def productMask (bp : List ℚ) (d : ℕ) : List ℚ :=
  (List.range (d * d)).map
    (fun k => if (∃ j < d, 0 < bp.getD (k / d * d + j) 0) ∧
                 (∃ i < d, 0 < bp.getD (i * d + k % d) 0) then 1 else 0)

/-- Spec-side: indicator of the smallest axis-aligned rectangle covering
all positive cells of the `d × d` grid — cell `(i, j)` lies in it iff some
positive cell sits at a row `≤ i`, some at a row `≥ i`, some at a column
`≤ j` and some at a column `≥ j` (that is, it is
`[minRow, maxRow] × [minCol, maxCol]` when positive cells exist, and empty
otherwise). -/
def smallestRectMask (bp : List ℚ) (d : ℕ) : List ℚ :=
  (List.range (d * d)).map (fun k =>
    if (∃ a < d * d, 0 < bp.getD a 0 ∧ a / d ≤ k / d) ∧
       (∃ a < d * d, 0 < bp.getD a 0 ∧ k / d ≤ a / d) ∧
       (∃ a < d * d, 0 < bp.getD a 0 ∧ a % d ≤ k % d) ∧
       (∃ a < d * d, 0 < bp.getD a 0 ∧ k % d ≤ a % d) then 1 else 0)

/-- Indicator, as a flat row of length `d * d`, of the solid axis-aligned
rectangle `[r1, r2] × [c1, c2]` of the `d × d` grid (empty when the bounds
are crossed or fall outside the grid). -/
def rectIndicator (d r1 r2 c1 c2 : ℕ) : List ℚ :=
  (List.range (d * d)).map (fun k =>
    if r1 ≤ k / d ∧ k / d ≤ r2 ∧ c1 ≤ k % d ∧ k % d ≤ c2 then 1 else 0)

/-! ### Lemmas about the mask -/

theorem getD_nonneg (l : List ℚ) (k : ℕ) (h : ∀ x ∈ l, 0 ≤ x) :
    0 ≤ l.getD k 0 := by
  induction l generalizing k with
  | nil => simp [List.getD]
  | cons a l ih =>
    cases k with
    | zero => exact h a (by simp)
    | succ k => simpa using ih k (fun x hx => h x (by simp [hx]))

theorem getD_range_map (f : ℕ → ℚ) (n k : ℕ) :
    ((List.range n).map f).getD k 0 = if k < n then f k else 0 := by
  split_ifs with h
  · rw [List.getD_eq_getElem _ _ (by simpa using h)]
    simp
  · rw [List.getD_eq_default _ _ (by simpa using h)]

theorem sum_map_range_pos_iff (f : ℕ → ℚ) (n : ℕ) (hf : ∀ m < n, 0 ≤ f m) :
    0 < ((List.range n).map f).sum ↔ ∃ m, m < n ∧ 0 < f m := by
  constructor
  · intro hpos
    by_contra hno
    push_neg at hno
    have hz : ∀ x ∈ (List.range n).map f, x = 0 := by
      intro x hx
      rcases List.mem_map.mp hx with ⟨m, hm, rfl⟩
      have hmn := List.mem_range.mp hm
      exact le_antisymm (hno m hmn) (hf m hmn)
    rw [List.sum_eq_zero hz] at hpos
    exact lt_irrefl 0 hpos
  · rintro ⟨m, hmn, hfm⟩
    have hmem : f m ∈ (List.range n).map f :=
      List.mem_map.mpr ⟨m, List.mem_range.mpr hmn, rfl⟩
    refine lt_of_lt_of_le hfm (List.single_le_sum ?_ _ hmem)
    intro x hx
    rcases List.mem_map.mp hx with ⟨m', hm', rfl⟩
    exact hf m' (List.mem_range.mp hm')

theorem indPos_mul_indPos (x y : ℚ) :
    indPos x * indPos y = if 0 < x ∧ 0 < y then (1 : ℚ) else 0 := by
  unfold indPos
  split_ifs <;> simp_all

theorem bboxMask_eq_productMask (bp : List ℚ) (d : ℕ)
    (h : ∀ x ∈ bp, 0 ≤ x) : bboxMask bp d = productMask bp d := by
  unfold bboxMask productMask
  apply List.map_congr_left
  intro k _
  rw [indPos_mul_indPos]
  have h1 : (0 < rowSum bp d (k / d)) ↔
      ∃ j < d, 0 < bp.getD (k / d * d + j) 0 := by
    unfold rowSum
    exact sum_map_range_pos_iff _ _ (fun m _ => getD_nonneg _ _ h)
  have h2 : (0 < colSum bp d (k % d)) ↔
      ∃ i < d, 0 < bp.getD (i * d + k % d) 0 := by
    unfold colSum
    exact sum_map_range_pos_iff _ _ (fun m _ => getD_nonneg _ _ h)
  rw [if_congr (and_congr h1 h2) rfl rfl]

theorem rectIndicator_nonneg (d r1 r2 c1 c2 : ℕ) :
    ∀ x ∈ rectIndicator d r1 r2 c1 c2, 0 ≤ x := by
  intro x hx
  rcases List.mem_map.mp hx with ⟨k, _, rfl⟩
  split <;> norm_num

theorem rectIndicator_getD (d r1 r2 c1 c2 i j : ℕ) (hi : i < d) (hj : j < d) :
    (rectIndicator d r1 r2 c1 c2).getD (i * d + j) 0 =
      if r1 ≤ i ∧ i ≤ r2 ∧ c1 ≤ j ∧ j ≤ c2 then 1 else 0 := by
  have hd : 0 < d := lt_of_le_of_lt (Nat.zero_le i) hi
  have hlt : i * d + j < d * d := by
    calc i * d + j < i * d + d := by omega
    _ = (i + 1) * d := by ring
    _ ≤ d * d := Nat.mul_le_mul_right d hi
  have hdiv : (i * d + j) / d = i := by
    rw [Nat.add_comm, Nat.add_mul_div_right _ _ hd, Nat.div_eq_of_lt hj,
      Nat.zero_add]
  have hmod : (i * d + j) % d = j := by
    rw [Nat.add_comm, Nat.add_mul_mod_self_right, Nat.mod_eq_of_lt hj]
  unfold rectIndicator
  rw [getD_range_map, if_pos hlt, hdiv, hmod]

/-- The bbox reconstruction is the identity on solid-rectangle masks. -/
theorem bboxMask_rectIndicator (d r1 r2 c1 c2 : ℕ) :
    bboxMask (rectIndicator d r1 r2 c1 c2) d = rectIndicator d r1 r2 c1 c2 := by
  rw [bboxMask_eq_productMask _ _ (rectIndicator_nonneg d r1 r2 c1 c2)]
  unfold productMask
  conv_rhs => unfold rectIndicator
  apply List.map_congr_left
  intro k hk
  have hkd : k < d * d := List.mem_range.mp hk
  have hd : 0 < d := by
    rcases Nat.eq_zero_or_pos d with rfl | hd
    · simp at hkd
    · exact hd
  have hi : k / d < d := (Nat.div_lt_iff_lt_mul hd).mpr hkd
  have hj : k % d < d := Nat.mod_lt _ hd
  have hiff : ((∃ j < d, 0 < (rectIndicator d r1 r2 c1 c2).getD (k / d * d + j) 0) ∧
      (∃ i < d, 0 < (rectIndicator d r1 r2 c1 c2).getD (i * d + k % d) 0)) ↔
      (r1 ≤ k / d ∧ k / d ≤ r2 ∧ c1 ≤ k % d ∧ k % d ≤ c2) := by
    constructor
    · rintro ⟨⟨j, hjd, hjpos⟩, ⟨i, hid, hipos⟩⟩
      rw [rectIndicator_getD d r1 r2 c1 c2 _ _ hi hjd] at hjpos
      rw [rectIndicator_getD d r1 r2 c1 c2 _ _ hid hj] at hipos
      have h1 : r1 ≤ k / d ∧ k / d ≤ r2 ∧ c1 ≤ j ∧ j ≤ c2 := by
        by_contra hcon
        rw [if_neg hcon] at hjpos
        exact lt_irrefl 0 hjpos
      have h2 : r1 ≤ i ∧ i ≤ r2 ∧ c1 ≤ k % d ∧ k % d ≤ c2 := by
        by_contra hcon
        rw [if_neg hcon] at hipos
        exact lt_irrefl 0 hipos
      exact ⟨h1.1, h1.2.1, h2.2.2.1, h2.2.2.2⟩
    · rintro ⟨ha, hb, hc, hd2⟩
      refine ⟨⟨k % d, hj, ?_⟩, ⟨k / d, hi, ?_⟩⟩ <;>
        · rw [rectIndicator_getD d r1 r2 c1 c2 _ _ hi hj,
            if_pos ⟨ha, hb, hc, hd2⟩]
          norm_num
  rw [if_congr hiff rfl rfl]

/-! ### Claim theorems: iou_bbox -/

/-- C1 counterexample: for the 3×3 prediction whose only cells above the
threshold 1/2 are the two opposite corners (0,0) and (2,2), the mask
computed inside `iou_bbox` is 1 only on the four corners (the product of
the two activity vectors), while the smallest axis-aligned rectangle
covering both positive cells is the full grid — they differ, e.g. at the
center cell. -/
theorem bboxMask_ne_smallestRect :
    bboxMask (([1, 0, 0, 0, 0, 0, 0, 0, 1] : List ℚ).map (binarize (1 / 2))) 3 ≠
      smallestRectMask
        (([1, 0, 0, 0, 0, 0, 0, 0, 1] : List ℚ).map (binarize (1 / 2))) 3 := by
  with_unfolding_all decide

/-- C1 (amended): the mask computed inside `iou_bbox` (row active iff its
binarized sum is positive, column likewise, cell 1 iff both hold) is the
indicator of the product set (active rows) × (active columns) — not, in
general, of the smallest covering rectangle — and `iou_bbox` returns the
batch mean of the per-instance IoU of this mask against `gt`. -/
theorem iou_bbox_mask_product (y_true y_pred : List (List ℚ)) (t : ℚ) (d : ℕ) :
    (∀ p : List ℚ,
      bboxMask (p.map (binarize t)) d = productMask (p.map (binarize t)) d) ∧
    iou_bbox y_true y_pred t d =
      mean (List.zipWith
        (fun g p => rowIoU g (productMask (p.map (binarize t)) d))
        y_true y_pred) := by
  have hmask : ∀ p : List ℚ,
      bboxMask (p.map (binarize t)) d = productMask (p.map (binarize t)) d := by
    intro p
    apply bboxMask_eq_productMask
    intro x hx
    rcases List.mem_map.mp hx with ⟨y, _, rfl⟩
    rcases binarize_mem_01 t y with h | h <;> rw [h] <;> norm_num
  refine ⟨hmask, ?_⟩
  unfold iou_bbox
  congr 1
  apply zipWith_congr_mem
  intro g _ p _
  rw [hmask p]

/-- C6: when every binarized prediction row is a solid axis-aligned
rectangle (possibly empty) of the `d × d` grid, the bbox reconstruction is
the identity, so `iou_bbox` agrees with plain `iou` on the same inputs. -/
theorem iou_bbox_eq_iou_of_rect (y_true y_pred : List (List ℚ)) (t : ℚ) (d : ℕ)
    (hg : entries01 y_true)
    (hrect : ∀ p ∈ y_pred, ∃ r1 r2 c1 c2,
      p.map (binarize t) = rectIndicator d r1 r2 c1 c2) :
    iou_bbox y_true y_pred t d = iou y_true y_pred t := by
  unfold iou_bbox iou
  congr 1
  apply zipWith_congr_mem
  intro g _ p hp
  rcases hrect p hp with ⟨r1, r2, c1, c2, hpeq⟩
  rw [hpeq, bboxMask_rectIndicator]

/-- Witness for C6: a 2×2 grid whose binarized prediction is the solid
rectangle occupying the whole first row. -/
theorem iou_bbox_eq_iou_of_rect_witness :
    iou_bbox [[1, 0, 0, 0]] [[1, 1, 0, 0]] (1 / 2) 2 =
      iou [[1, 0, 0, 0]] [[1, 1, 0, 0]] (1 / 2) :=
  iou_bbox_eq_iou_of_rect [[1, 0, 0, 0]] [[1, 1, 0, 0]] (1 / 2) 2
    (by intro r hr x hx; fin_cases hr <;> fin_cases hx <;> simp)
    (by
      intro p hp
      rw [List.mem_singleton] at hp
      subst hp
      exact ⟨0, 0, 0, 1, by with_unfolding_all decide⟩)

/-! ### Range invariants -/

theorem sum_zipWith_le (f h : ℚ → ℚ → ℚ) (P Q : ℚ → Prop)
    (hfh : ∀ a b, P a → Q b → f a b ≤ h a b) :
    ∀ (l1 l2 : List ℚ), (∀ x ∈ l1, P x) → (∀ x ∈ l2, Q x) →
      (List.zipWith f l1 l2).sum ≤ (List.zipWith h l1 l2).sum := by
  intro l1
  induction l1 with
  | nil => intro l2 _ _; simp
  | cons a l1 ih =>
    intro l2 h1 h2
    cases l2 with
    | nil => simp
    | cons b l2 =>
      simp only [List.zipWith_cons_cons, List.sum_cons]
      exact add_le_add (hfh a b (h1 a (by simp)) (h2 b (by simp)))
        (ih l2 (fun x hx => h1 x (by simp [hx])) (fun x hx => h2 x (by simp [hx])))

theorem sum_zipWith_nonneg (f : ℚ → ℚ → ℚ) (P Q : ℚ → Prop)
    (hf : ∀ a b, P a → Q b → 0 ≤ f a b) :
    ∀ (l1 l2 : List ℚ), (∀ x ∈ l1, P x) → (∀ x ∈ l2, Q x) →
      0 ≤ (List.zipWith f l1 l2).sum := by
  intro l1
  induction l1 with
  | nil => intro l2 _ _; simp
  | cons a l1 ih =>
    intro l2 h1 h2
    cases l2 with
    | nil => simp
    | cons b l2 =>
      simp only [List.zipWith_cons_cons, List.sum_cons]
      have := ih l2 (fun x hx => h1 x (by simp [hx])) (fun x hx => h2 x (by simp [hx]))
      have hab := hf a b (h1 a (by simp)) (h2 b (by simp))
      linarith

theorem mean_nonneg (l : List ℚ) (h : ∀ x ∈ l, 0 ≤ x) : 0 ≤ mean l :=
  div_nonneg (List.sum_nonneg h) (Nat.cast_nonneg _)

theorem mean_le_one (l : List ℚ) (h : ∀ x ∈ l, x ≤ 1) : mean l ≤ 1 := by
  unfold mean
  rcases eq_or_ne l [] with rfl | hne
  · simp
  · have hlen : (0 : ℚ) < l.length := by
      have := List.length_pos.mpr hne
      exact_mod_cast this
    rw [div_le_one hlen]
    have := List.sum_le_card_nsmul l 1 h
    simpa using this

theorem mean_bounds (l : List ℚ) (h : ∀ x ∈ l, 0 ≤ x ∧ x ≤ 1) :
    0 ≤ mean l ∧ mean l ≤ 1 :=
  ⟨mean_nonneg l (fun x hx => (h x hx).1), mean_le_one l (fun x hx => (h x hx).2)⟩

theorem eps_pos : (0 : ℚ) < eps := by norm_num [eps]

theorem div_add_eps_bounds (a b : ℚ) (ha : 0 ≤ a) (hb : 0 ≤ b) :
    0 ≤ a / (a + b + eps) ∧ a / (a + b + eps) ≤ 1 := by
  have he := eps_pos
  constructor
  · exact div_nonneg ha (by linarith)
  · rw [div_le_one (by linarith)]
    linarith

theorem rowIoU_bounds (g m : List ℚ) (hg : ∀ x ∈ g, x = 0 ∨ x = 1)
    (hm : ∀ x ∈ m, x = 0 ∨ x = 1) : 0 ≤ rowIoU g m ∧ rowIoU g m ≤ 1 := by
  unfold rowIoU
  have hnum0 : 0 ≤ (List.zipWith (· * ·) g m).sum := by
    apply sum_zipWith_nonneg _ (fun x => x = 0 ∨ x = 1) (fun x => x = 0 ∨ x = 1)
      _ g m hg hm
    intro a b ha hb
    rcases ha with rfl | rfl <;> rcases hb with rfl | rfl <;> norm_num
  have hu0 : 0 ≤ (List.zipWith (fun a b => indPos (a + b)) g m).sum := by
    apply sum_zipWith_nonneg _ (fun x => x = 0 ∨ x = 1) (fun x => x = 0 ∨ x = 1)
      _ g m hg hm
    intro a b _ _
    unfold indPos
    split <;> norm_num
  have hle : (List.zipWith (· * ·) g m).sum ≤
      (List.zipWith (fun a b => indPos (a + b)) g m).sum := by
    apply sum_zipWith_le _ _ (fun x => x = 0 ∨ x = 1) (fun x => x = 0 ∨ x = 1)
      _ g m hg hm
    intro a b ha hb
    rcases ha with rfl | rfl <;> rcases hb with rfl | rfl <;> norm_num [indPos]
  have he := eps_pos
  constructor
  · exact div_nonneg hnum0 (by linarith)
  · rw [div_le_one (by linarith)]
    linarith

theorem rowPrecision_bounds (g m : List ℚ) (hg : ∀ x ∈ g, x = 0 ∨ x = 1)
    (hm : ∀ x ∈ m, x = 0 ∨ x = 1) :
    0 ≤ rowPrecision g m ∧ rowPrecision g m ≤ 1 := by
  unfold rowPrecision
  apply div_add_eps_bounds
  · apply sum_zipWith_nonneg _ (fun x => x = 0 ∨ x = 1) (fun x => x = 0 ∨ x = 1)
      _ g m hg hm
    intro a b ha hb
    rcases ha with rfl | rfl <;> rcases hb with rfl | rfl <;> norm_num
  · apply sum_zipWith_nonneg _ (fun x => x = 0 ∨ x = 1) (fun x => x = 0 ∨ x = 1)
      _ g m hg hm
    intro a b _ _
    unfold indPos
    split <;> norm_num

theorem rowRecall_bounds (g m : List ℚ) (hg : ∀ x ∈ g, x = 0 ∨ x = 1)
    (hm : ∀ x ∈ m, x = 0 ∨ x = 1) :
    0 ≤ rowRecall g m ∧ rowRecall g m ≤ 1 := by
  unfold rowRecall
  apply div_add_eps_bounds
  · apply sum_zipWith_nonneg _ (fun x => x = 0 ∨ x = 1) (fun x => x = 0 ∨ x = 1)
      _ g m hg hm
    intro a b ha hb
    rcases ha with rfl | rfl <;> rcases hb with rfl | rfl <;> norm_num
  · apply sum_zipWith_nonneg _ (fun x => x = 0 ∨ x = 1) (fun x => x = 0 ∨ x = 1)
      _ g m hg hm
    intro a b _ _
    unfold indPos
    split <;> norm_num

theorem map_binarize_entries_01 (t : ℚ) (p : List ℚ) :
    ∀ x ∈ p.map (binarize t), x = 0 ∨ x = 1 := by
  intro x hx
  rcases List.mem_map.mp hx with ⟨y, _, rfl⟩
  exact binarize_mem_01 t y

theorem bboxMask_entries_01 (bp : List ℚ) (d : ℕ) :
    ∀ x ∈ bboxMask bp d, x = 0 ∨ x = 1 := by
  intro x hx
  rcases List.mem_map.mp hx with ⟨k, _, rfl⟩
  rcases indPos_mem_01 (rowSum bp d (k / d)) with h1 | h1 <;>
    rcases indPos_mem_01 (colSum bp d (k % d)) with h2 | h2 <;>
      rw [h1, h2] <;> norm_num

/-- C10: with {0,1} ground truth, each of the five metrics returns a
scalar in the closed interval [0,1]: every per-instance ratio has a
nonnegative numerator bounded by its (strictly positive, thanks to the
epsilon) denominator, and the batch mean of values in [0,1] stays in
[0,1]. -/
theorem metrics_mem_unit_interval (y_true y_pred : List (List ℚ)) (t : ℚ)
    (d : ℕ) (hg : entries01 y_true) :
    (0 ≤ iou y_true y_pred t ∧ iou y_true y_pred t ≤ 1) ∧
    (0 ≤ precision y_true y_pred t ∧ precision y_true y_pred t ≤ 1) ∧
    (0 ≤ «recall» y_true y_pred t ∧ «recall» y_true y_pred t ≤ 1) ∧
    (0 ≤ iou_acc y_true y_pred t ∧ iou_acc y_true y_pred t ≤ 1) ∧
    (0 ≤ iou_bbox y_true y_pred t d ∧ iou_bbox y_true y_pred t d ≤ 1) := by
  refine ⟨?_, ?_, ?_, ?_, ?_⟩
  · apply mean_bounds
    apply forall_mem_zipWith (fun v => 0 ≤ v ∧ v ≤ 1)
    intro g hgm p _
    exact rowIoU_bounds g _ (hg g hgm) (map_binarize_entries_01 t p)
  · apply mean_bounds
    apply forall_mem_zipWith (fun v => 0 ≤ v ∧ v ≤ 1)
    intro g hgm p _
    exact rowPrecision_bounds g _ (hg g hgm) (map_binarize_entries_01 t p)
  · apply mean_bounds
    apply forall_mem_zipWith (fun v => 0 ≤ v ∧ v ≤ 1)
    intro g hgm p _
    exact rowRecall_bounds g _ (hg g hgm) (map_binarize_entries_01 t p)
  · apply mean_bounds
    intro x hx
    rcases List.mem_map.mp hx with ⟨v, _, rfl⟩
    split <;> norm_num
  · apply mean_bounds
    apply forall_mem_zipWith (fun v => 0 ≤ v ∧ v ≤ 1)
    intro g hgm p _
    exact rowIoU_bounds g _ (hg g hgm) (bboxMask_entries_01 _ d)

/-- Witness for C10 at a concrete batch. -/
theorem metrics_mem_unit_interval_witness :
    (0 ≤ iou [[1, 0, 0, 0]] [[1, 1, 0, 0]] (1 / 2) ∧
      iou [[1, 0, 0, 0]] [[1, 1, 0, 0]] (1 / 2) ≤ 1) ∧
    (0 ≤ precision [[1, 0, 0, 0]] [[1, 1, 0, 0]] (1 / 2) ∧
      precision [[1, 0, 0, 0]] [[1, 1, 0, 0]] (1 / 2) ≤ 1) ∧
    (0 ≤ «recall» [[1, 0, 0, 0]] [[1, 1, 0, 0]] (1 / 2) ∧
      «recall» [[1, 0, 0, 0]] [[1, 1, 0, 0]] (1 / 2) ≤ 1) ∧
    (0 ≤ iou_acc [[1, 0, 0, 0]] [[1, 1, 0, 0]] (1 / 2) ∧
      iou_acc [[1, 0, 0, 0]] [[1, 1, 0, 0]] (1 / 2) ≤ 1) ∧
    (0 ≤ iou_bbox [[1, 0, 0, 0]] [[1, 1, 0, 0]] (1 / 2) 2 ∧
      iou_bbox [[1, 0, 0, 0]] [[1, 1, 0, 0]] (1 / 2) 2 ≤ 1) :=
  metrics_mem_unit_interval [[1, 0, 0, 0]] [[1, 1, 0, 0]] (1 / 2) 2
    (by intro r hr x hx; fin_cases hr <;> fin_cases hx <;> simp)

/-! ### get_metrics -/

/-- Decimal digits of a fractional part `0 ≤ q < 1`, with fuel: the digit
stream of `q` until it terminates (Python's `str` prints the shortest such
expansion for the thresholds used here). -/
def decDigits : ℕ → ℚ → String
  | 0, _ => ""
  | fuel + 1, q =>
    if q = 0 then ""
    else
      let q10 := q * 10
      let dg : ℕ := (⌊q10⌋).toNat
      toString dg ++ decDigits fuel (q10 - (dg : ℚ))

/-- Python `str` of a float with a short decimal expansion, e.g.
`str(0.5) = "0.5"`: sign, integer part, a dot, and the fractional digits
(`"0"` when the value is integral). -/
def pyFloatStr (q : ℚ) : String :=
  let s := if q < 0 then "-" else ""
  let a := if q < 0 then -q else q
  let ip := (⌊a⌋).toNat
  let ds := decDigits 17 (a - (ip : ℚ))
  s ++ toString ip ++ "." ++ (if ds = "" then "0" else ds)

/-- A three-argument metric together with its `__name__`, as iterated by
the factory loop (`iou_bbox` enters the loop already closed over
`input_dim`, with `__name__` set to `"iou_bbox"`). -/
structure MetricFn where
  name : String
  fn : List (List ℚ) → List (List ℚ) → ℚ → ℚ

/-- A metric closed over its threshold, with its exposed `__name__`. -/
structure NamedMetric where
  name : String
  run : List (List ℚ) → List (List ℚ) → ℚ

/-- Factory `get_metrics(input_dim, heatmap_threshold)` from the source: the outer
loop runs over the metric kinds `[iou, precision, recall, iou_acc,
iou_bbox]` in that order, the inner loop over the thresholds in the given
order, and each produced function is the metric closed over its threshold
and named `"<metric>_<threshold>"`. -/
def get_metrics (input_dim : ℕ) (heatmap_threshold : List ℚ) : List NamedMetric :=
  let iou_bbox_metric : MetricFn :=
    ⟨"iou_bbox", fun gt pred t => iou_bbox gt pred t input_dim⟩
  ([⟨"iou", iou⟩, ⟨"precision", precision⟩, ⟨"recall", «recall»⟩,
    ⟨"iou_acc", iou_acc⟩, iou_bbox_metric] : List MetricFn).bind
    (fun mf => heatmap_threshold.map
      (fun th => ⟨mf.name ++ "_" ++ pyFloatStr th, fun gt pred => mf.fn gt pred th⟩))

/-- Fallback element for indexing into the metric list. -/
def defaultMetric : NamedMetric := ⟨"", fun _ _ => 0⟩

/-- C3: `get_metrics` returns exactly `5 * len(thresholds)` metric
functions, ordered with the outer loop over the metric kinds
`[iou, precision, recall, iou_acc, iou_bbox]` and the inner loop over the
thresholds, each named `"<metric>_<threshold>"`; in particular
`get_metrics 3 [0.5]` returns exactly the five functions named `iou_0.5`,
`precision_0.5`, `recall_0.5`, `iou_acc_0.5`, `iou_bbox_0.5` in that
order, each behaving as the corresponding metric closed over the threshold
1/2 (and over `input_dim = 3` for `iou_bbox`). -/
theorem get_metrics_spec :
    (∀ (d : ℕ) (ts : List ℚ), (get_metrics d ts).length = 5 * ts.length) ∧
    (∀ (d : ℕ) (ts : List ℚ),
      (get_metrics d ts).map NamedMetric.name =
        (["iou", "precision", "recall", "iou_acc", "iou_bbox"] :
            List String).bind
          (fun n => ts.map (fun th => n ++ "_" ++ pyFloatStr th))) ∧
    ((get_metrics 3 [1 / 2]).map NamedMetric.name =
      ["iou_0.5", "precision_0.5", "recall_0.5", "iou_acc_0.5",
        "iou_bbox_0.5"]) ∧
    (∀ (gt pred : List (List ℚ)),
      ((get_metrics 3 [1 / 2]).getD 0 defaultMetric).run gt pred =
          iou gt pred (1 / 2) ∧
        ((get_metrics 3 [1 / 2]).getD 1 defaultMetric).run gt pred =
          precision gt pred (1 / 2) ∧
        ((get_metrics 3 [1 / 2]).getD 2 defaultMetric).run gt pred =
          «recall» gt pred (1 / 2) ∧
        ((get_metrics 3 [1 / 2]).getD 3 defaultMetric).run gt pred =
          iou_acc gt pred (1 / 2) ∧
        ((get_metrics 3 [1 / 2]).getD 4 defaultMetric).run gt pred =
          iou_bbox gt pred (1 / 2) 3) := by
  refine ⟨?_, ?_, ?_, ?_⟩
  · intro d ts
    simp [get_metrics, List.bind]
    ring
  · intro d ts
    simp [get_metrics, List.bind, List.map_append, List.map_map]
    rfl
  · with_unfolding_all decide
  · intro gt pred
    refine ⟨rfl, rfl, rfl, rfl, rfl⟩

/-! ### Shape-level model of the Keras/TensorFlow ops used by `iou_bbox`

`iou_bbox` reshapes the whole batch with `K.reshape(pred, (-1, d, d))`,
which at the TensorFlow level succeeds exactly when `d * d` divides the
total element count — not only when it equals the row length — and the
later elementwise products and sums follow numpy broadcasting. This model
carries explicit shapes so those behaviours are visible. -/

namespace TF

/-- A dense tensor: row-major flat data plus its shape. -/
structure Tensor where
  shape : List ℕ
  data : List ℚ

/-- Row-major strides of a shape: `strides (d :: rest) = rest.prod :: …`. -/
def strides : List ℕ → List ℕ
  | [] => []
  | _ :: rest => rest.prod :: strides rest

/-- Multi-index of flat position `k` in a shape. -/
def multiIndex (s : List ℕ) (k : ℕ) : List ℕ :=
  List.zipWith (fun st dim => k / st % dim) (strides s) s

/-- Flat position of a multi-index in a shape. -/
def flatIndex (s : List ℕ) (m : List ℕ) : ℕ :=
  (List.zipWith (· * ·) (strides s) m).sum

/-- Op `K.cast(K.greater(x, t), "float32")`, elementwise on any shape. -/
def tGreaterScalar (x : Tensor) (t : ℚ) : Tensor :=
  ⟨x.shape, x.data.map (binarize t)⟩

/-- Op `K.cast(K.greater(x, 0), "float32")`, elementwise on any shape. -/
def tGreaterZero (x : Tensor) : Tensor :=
  ⟨x.shape, x.data.map indPos⟩

/-- Op `K.reshape(x, (-1, dims...))`: succeeds iff `dims.prod` is positive
and divides the element count, inferring the leading dimension. -/
def tReshapeInfer (x : Tensor) (dims : List ℕ) : Except String Tensor :=
  if dims.prod ≠ 0 ∧ dims.prod ∣ x.shape.prod then
    .ok ⟨x.shape.prod / dims.prod :: dims, x.data⟩
  else
    .error "InvalidArgument: reshape"

/-- Op `K.sum(x, axis=a, keepdims=True)`. -/
def tSumAxisKeep (x : Tensor) (a : ℕ) : Tensor :=
  let s := x.shape
  let s2 := s.set a 1
  let n := s.getD a 1
  ⟨s2, (List.range s2.prod).map (fun k =>
    ((List.range n).map
      (fun v => x.data.getD (flatIndex s ((multiIndex s2 k).set a v)) 0)).sum)⟩

/-- Op `K.sum(x, axis=a)` (no kept dimension): the kept-dims sum with the
now-singleton axis dropped — same flat data order. -/
def tSumAxis (x : Tensor) (a : ℕ) : Tensor :=
  ⟨(tSumAxisKeep x a).shape.eraseIdx a, (tSumAxisKeep x a).data⟩

/-- Op `K.repeat_elements(x, rep, axis=a)`. -/
def tRepeatElements (x : Tensor) (rep a : ℕ) : Tensor :=
  let s := x.shape
  let s2 := s.set a (s.getD a 1 * rep)
  ⟨s2, (List.range s2.prod).map (fun k =>
    let m := multiIndex s2 k
    x.data.getD (flatIndex s (m.set a (m.getD a 0 / rep))) 0)⟩

/-- Left-pad a shape with singleton dimensions. -/
def padShape (s : List ℕ) (n : ℕ) : List ℕ :=
  List.replicate (n - s.length) 1 ++ s

/-- One dimension of numpy broadcasting. -/
def bcastDim (a b : ℕ) : Option ℕ :=
  if a = b then some a else if a = 1 then some b else if b = 1 then some a
  else none

/-- Collect a list of optional dimensions, failing if any failed. -/
def seqOpt : List (Option ℕ) → Option (List ℕ)
  | [] => some []
  | o :: rest => o.bind (fun x => (seqOpt rest).map (fun xs => x :: xs))

/-- numpy broadcast of two shapes (align right, pad with 1s). -/
def broadcastShapes (s1 s2 : List ℕ) : Option (List ℕ) :=
  let n := max s1.length s2.length
  seqOpt (List.zipWith bcastDim (padShape s1 n) (padShape s2 n))

/-- Index into a broadcast operand: collapse indices of its singleton
dimensions to 0. -/
def srcIndex (orig m : List ℕ) : List ℕ :=
  List.zipWith (fun dim mi => if dim = 1 then 0 else mi) orig m

/-- A binary elementwise op with numpy broadcasting; fails (as TensorFlow
does, with InvalidArgument) on incompatible shapes. -/
def tBroadcastOp (f : ℚ → ℚ → ℚ) (x y : Tensor) : Except String Tensor :=
  match broadcastShapes x.shape y.shape with
  | none => .error "InvalidArgument: incompatible broadcast shapes"
  | some s =>
    let n := max x.shape.length y.shape.length
    let p1 := padShape x.shape n
    let p2 := padShape y.shape n
    .ok ⟨s, (List.range s.prod).map (fun k =>
      let m := multiIndex s k
      f (x.data.getD (flatIndex p1 (srcIndex p1 m)) 0)
        (y.data.getD (flatIndex p2 (srcIndex p2 m)) 0))⟩

/-- Op `K.epsilon() + x` (scalar broadcast). -/
def tAddScalar (c : ℚ) (x : Tensor) : Tensor :=
  ⟨x.shape, x.data.map (fun v => c + v)⟩

/-- Op `K.mean(x)` over all entries. -/
def tMean (x : Tensor) : ℚ := mean x.data

/-- Whether an `Except` computation succeeded. -/
def isOkE (e : Except String ℚ) : Bool :=
  match e with
  | .ok _ => true
  | .error _ => false

/-- Function `iou_bbox` at the Keras/TensorFlow op level, shapes included: the
exact op sequence of the source, where the reshape infers the leading
dimension and every elementwise op broadcasts. -/
def iou_bboxTF (y_true y_pred : Tensor) (t : ℚ) (input_dim : ℕ) :
    Except String ℚ := do
  let pred0 := tGreaterScalar y_pred t
  let pred ← tReshapeInfer pred0 [input_dim, input_dim]
  let horiz := tGreaterZero (tSumAxisKeep pred 1)
  let mask_horiz := tRepeatElements horiz input_dim 1
  let vert := tGreaterZero (tSumAxisKeep pred 2)
  let mask_vert := tRepeatElements vert input_dim 2
  let mask0 ← tBroadcastOp (· * ·) mask_vert mask_horiz
  let mask ← tReshapeInfer mask0 [input_dim * input_dim]
  let intersection ← tBroadcastOp (· * ·) y_true mask
  let unionRaw ← tBroadcastOp (· + ·) y_true mask
  let union := tGreaterZero unionRaw
  let iou_values ← tBroadcastOp (fun a b => a / b) (tSumAxis intersection 1)
    (tAddScalar eps (tSumAxis union 1))
  return tMean iou_values

end TF

namespace TF

theorem bindE_ok {α β : Type} (a : α) (f : α → Except String β) :
    (Except.ok a >>= f : Except String β) = f a := rfl

theorem bindE_error {α β : Type} (e : String) (f : α → Except String β) :
    ((Except.error e : Except String α) >>= f : Except String β) =
      Except.error e := rfl

theorem seqOpt_map_some (s : List ℕ) :
    seqOpt (s.map (fun a => some a)) = some s := by
  induction s with
  | nil => rfl
  | cons a s ih => simp [seqOpt, ih]

theorem seqOpt_bcast_self (s : List ℕ) :
    seqOpt (List.zipWith bcastDim s s) = some s := by
  have hz : List.zipWith bcastDim s s = s.map (fun a => some a) := by
    induction s with
    | nil => rfl
    | cons a s ih => simp [bcastDim, ih]
  rw [hz, seqOpt_map_some]

theorem broadcastShapes_self (s : List ℕ) : broadcastShapes s s = some s := by
  unfold broadcastShapes padShape
  simp only [max_self, Nat.sub_self, List.replicate_zero, List.nil_append]
  exact seqOpt_bcast_self s

theorem tBroadcastOp_same_shape (f : ℚ → ℚ → ℚ) (x y : Tensor) (s : List ℕ)
    (hx : x.shape = s) (hy : y.shape = s) :
    ∃ dl, tBroadcastOp f x y = .ok ⟨s, dl⟩ := by
  unfold tBroadcastOp
  rw [hx, hy, broadcastShapes_self]
  exact ⟨_, rfl⟩

theorem step_mask (B d : ℕ) (dat : List ℚ) :
    ∃ dl, tBroadcastOp (· * ·)
        (tRepeatElements (tGreaterZero (tSumAxisKeep ⟨[B, d, d], dat⟩ 2)) d 2)
        (tRepeatElements (tGreaterZero (tSumAxisKeep ⟨[B, d, d], dat⟩ 1)) d 1) =
      .ok ⟨[B, d, d], dl⟩ := by
  have hv : (tRepeatElements (tGreaterZero (tSumAxisKeep ⟨[B, d, d], dat⟩ 2))
      d 2).shape = [B, d, 1 * d] := rfl
  have hh : (tRepeatElements (tGreaterZero (tSumAxisKeep ⟨[B, d, d], dat⟩ 1))
      d 1).shape = [B, 1 * d, d] := rfl
  exact tBroadcastOp_same_shape (· * ·)
    (tRepeatElements (tGreaterZero (tSumAxisKeep ⟨[B, d, d], dat⟩ 2)) d 2)
    (tRepeatElements (tGreaterZero (tSumAxisKeep ⟨[B, d, d], dat⟩ 1)) d 1)
    [B, d, d] (by rw [hv, one_mul]) (by rw [hh, one_mul])

theorem step_reshape_flat (B d : ℕ) (hd : 0 < d) (dat : List ℚ) :
    tReshapeInfer ⟨[B, d, d], dat⟩ [d * d] = .ok ⟨[B, d * d], dat⟩ := by
  have hdd : 0 < d * d := Nat.mul_pos hd hd
  have hcond : (([d * d] : List ℕ).prod ≠ 0 ∧
      ([d * d] : List ℕ).prod ∣ (Tensor.mk [B, d, d] dat).shape.prod) := by
    constructor
    · simp only [List.prod_cons, List.prod_nil, mul_one]
      exact Nat.pos_iff_ne_zero.mp hdd
    · simp only [List.prod_cons, List.prod_nil, mul_one]
      exact dvd_mul_left (d * d) B
  unfold tReshapeInfer
  rw [if_pos hcond]
  have hq : (Tensor.mk [B, d, d] dat).shape.prod / ([d * d] : List ℕ).prod
      = B := by
    simp only [List.prod_cons, List.prod_nil, mul_one]
    exact Nat.mul_div_cancel B hdd
  rw [hq]

/-- C9 counterexample: with batch 4 and row length N = 1, `input_dim = 2`
gives `input_dim * input_dim = 4 ≠ 1`, yet `iou_bbox` succeeds: the
whole-batch reshape `(-1, 2, 2)` only needs `4 ∣ batch * N`, and the
reshaped mask of shape (1, 4) then broadcasts against the (4, 1) ground
truth instead of failing. -/
theorem iou_bboxTF_ok_on_shape_mismatch :
    isOkE (iou_bboxTF ⟨[4, 1], [1, 1, 1, 1]⟩ ⟨[4, 1], [1, 1, 1, 1]⟩ (1 / 2) 2)
        = true ∧ (2 * 2 : ℕ) ≠ 1 := by
  constructor
  · with_unfolding_all decide
  · decide

/-- C9 (amended): for inputs of shape (batch, N), the reshape inside
`iou_bbox` fails with an InvalidArgument error iff `input_dim²` does not
divide `batch * N` (so in particular `iou_bbox` errors whenever that
divisibility fails), and `iou_bbox` succeeds whenever
`input_dim * input_dim = N`; when the reshape succeeds with
`input_dim² ≠ N` the later elementwise ops may still succeed by
broadcasting. -/
theorem iou_bboxTF_shape_spec (B N d : ℕ) (t : ℚ) (gt pred : Tensor)
    (hgt : gt.shape = [B, N]) (hpred : pred.shape = [B, N]) (hd : 0 < d) :
    (¬ d * d ∣ B * N →
      iou_bboxTF gt pred t d = .error "InvalidArgument: reshape") ∧
    (d * d = N → isOkE (iou_bboxTF gt pred t d) = true) := by
  constructor
  · intro hndvd
    have h1 : tReshapeInfer (tGreaterScalar pred t) [d, d] =
        .error "InvalidArgument: reshape" := by
      unfold tReshapeInfer
      rw [if_neg]
      rintro ⟨hne, hdvd⟩
      apply hndvd
      have hs : (tGreaterScalar pred t).shape = [B, N] := hpred
      rw [hs] at hdvd
      simpa [mul_one] using hdvd
    unfold iou_bboxTF
    simp only [h1, bindE_error]
  · intro hN
    subst hN
    have hdd : 0 < d * d := Nat.mul_pos hd hd
    have h1 : tReshapeInfer (tGreaterScalar pred t) [d, d] =
        .ok ⟨[B, d, d], pred.data.map (binarize t)⟩ := by
      have hs : (tGreaterScalar pred t).shape = [B, d * d] := hpred
      have hcond : (([d, d] : List ℕ).prod ≠ 0 ∧
          ([d, d] : List ℕ).prod ∣ (tGreaterScalar pred t).shape.prod) := by
        rw [hs]
        constructor
        · simp only [List.prod_cons, List.prod_nil, mul_one]
          exact Nat.pos_iff_ne_zero.mp hdd
        · simp only [List.prod_cons, List.prod_nil, mul_one]
          exact dvd_mul_left (d * d) B
      unfold tReshapeInfer
      rw [if_pos hcond, hs]
      have hq : ([B, d * d] : List ℕ).prod / ([d, d] : List ℕ).prod = B := by
        simp only [List.prod_cons, List.prod_nil, mul_one]
        exact Nat.mul_div_cancel B hdd
      rw [hq]
      rfl
    obtain ⟨dl2, h2⟩ := step_mask B d (pred.data.map (binarize t))
    have h3 := step_reshape_flat B d hd dl2
    obtain ⟨dl4, h4⟩ := tBroadcastOp_same_shape (· * ·) gt ⟨[B, d * d], dl2⟩
      [B, d * d] hgt rfl
    obtain ⟨dl5, h5⟩ := tBroadcastOp_same_shape (· + ·) gt ⟨[B, d * d], dl2⟩
      [B, d * d] hgt rfl
    obtain ⟨dl6, h6⟩ := tBroadcastOp_same_shape (fun a b => a / b)
      (tSumAxis ⟨[B, d * d], dl4⟩ 1)
      (tAddScalar eps (tSumAxis (tGreaterZero ⟨[B, d * d], dl5⟩) 1))
      [B] rfl rfl
    simp only [iou_bboxTF, h1, bindE_ok, h2, h3, h4, h5, h6]
    rfl

end TF

/-- Witness for the amended C9: a (2, 3) batch with `input_dim = 2` fails
at the reshape (4 does not divide 6), and a (1, 4) batch with
`input_dim = 2` (so `input_dim² = N`) succeeds. -/
theorem iou_bboxTF_shape_spec_witness :
    TF.iou_bboxTF ⟨[2, 3], [1, 1, 1, 1, 1, 1]⟩ ⟨[2, 3], [1, 1, 1, 1, 1, 1]⟩
        (1 / 2) 2 = .error "InvalidArgument: reshape" ∧
      TF.isOkE (TF.iou_bboxTF ⟨[1, 4], [1, 0, 0, 1]⟩ ⟨[1, 4], [1, 0, 0, 1]⟩
        (1 / 2) 2) = true :=
  ⟨(TF.iou_bboxTF_shape_spec 2 3 2 (1 / 2) _ _ rfl rfl (by decide)).1
      (by decide),
    (TF.iou_bboxTF_shape_spec 1 4 2 (1 / 2) _ _ rfl rfl (by decide)).2 rfl⟩

end EvalUtils
